import Mathlib

/-!
Verification development for the virtio-fs glue layer
(`contrib/virtiofsd/fuse_virtio.c`).

Modelling conventions:
* A guest buffer region (`struct iovec`) is modelled by its byte content,
  a `List Nat`; the `iov_len` of the region is the length of the list.  A
  scatter/gather list (`struct iovec *` plus a count) is a
  `List (List Nat)`; the C count argument is the length of the list.
* `memcpy(base + off, src, n)` into a region is modelled by `writeAt`,
  which overwrites `off ≤ i < off + n` of the region content.
* A C `assert` (which aborts the process) and undefined behaviour
  (out-of-bounds access) are modelled by returning `none`: a `none`
  result means the function did not run to completion, and in
  particular produced none of its later side effects.
* `size_t` arithmetic is modelled over `Nat`.  The only subtractions
  performed by the code (`dst_iov[0].iov_len - dst_offset` in
  `copy_iov`) happen in states where the invariant
  `dst_offset ≤ dst_iov[0].iov_len` holds, where truncated `Nat`
  subtraction agrees with `size_t` subtraction; the assertion the code
  itself places on that invariant is kept in the model.
-/

/-- `memcpy` into a byte region: overwrite region `r` starting at offset
`off` with the bytes `b`, leaving every other byte of `r` unchanged.
(The caller is in bounds when `off + b.length ≤ r.length`; only then does
this preserve `r.length`.) -/
def writeAt (r : List Nat) (off : Nat) (b : List Nat) : List Nat :=
  r.take off ++ b ++ r.drop (off + b.length)

/-- The libfuse helper `iov_length(iov, count)`: total byte length of a
scatter/gather list. -/
def iov_length (l : List (List Nat)) : Nat := (l.map List.length).sum

/-- Inner loop of `copy_iov` (fuse_virtio.c lines 143-164): copy the
bytes `src[srcOff .. srcOff+srcLen)` of the current source region into the
destination regions.  `done` holds the destination regions already fully
advanced past (`dst_iov` before the current pointer), `rest` the current
and remaining destination regions (`dst_iov[0..dst_count)`), `dstOff`
is `dst_offset`.  Returns the updated `(done, rest, dstOff, toCopy)`;
`none` models a fired `assert` (`assert(dst_count)`,
`assert(dst_offset <= dst_iov[0].iov_len)`). -/
def copy_inner (src : List Nat) (srcOff srcLen : Nat)
    (done rest : List (List Nat)) (dstOff toCopy : Nat) :
    Option (List (List Nat) × List (List Nat) × Nat × Nat) :=
  if _h0 : srcLen = 0 then some (done, rest, dstOff, toCopy)
  else
    match rest with
    | [] => none
    | d :: ds =>
      if _h1 : d.length < dstOff + min (d.length - dstOff) srcLen then
        none
      else if _h2 : dstOff + min (d.length - dstOff) srcLen = d.length then
        copy_inner src (srcOff + min (d.length - dstOff) srcLen)
          (srcLen - min (d.length - dstOff) srcLen)
          (done ++ [writeAt d dstOff
            ((src.drop srcOff).take (min (d.length - dstOff) srcLen))])
          ds 0 (toCopy - min (d.length - dstOff) srcLen)
      else
        copy_inner src (srcOff + min (d.length - dstOff) srcLen)
          (srcLen - min (d.length - dstOff) srcLen)
          done
          (writeAt d dstOff
            ((src.drop srcOff).take (min (d.length - dstOff) srcLen)) :: ds)
          (dstOff + min (d.length - dstOff) srcLen)
          (toCopy - min (d.length - dstOff) srcLen)
termination_by srcLen + rest.length
decreasing_by
  · simp only [List.length_cons]
    omega
  · simp only [List.length_cons]
    omega

/-- Outer loop of `copy_iov` (fuse_virtio.c lines 132-167): while
`toCopy ≠ 0`, take the next source region (`assert(src_count)` modelled
by `none` on the empty list), clip `src_len` to `toCopy`, and run the
inner loop.  Returns the final destination region contents
`done ++ rest`. -/
def copy_outer (srcs : List (List Nat)) (done rest : List (List Nat))
    (dstOff toCopy : Nat) : Option (List (List Nat)) :=
  if toCopy = 0 then some (done ++ rest)
  else
    match srcs with
    | [] => none
    | s :: ss =>
      match copy_inner s 0 (min s.length toCopy) done rest dstOff toCopy with
      | none => none
      | some (done', rest', dstOff', toCopy') =>
        copy_outer ss done' rest' dstOff' toCopy'

/-- `copy_iov(src_iov, src_count, dst_iov, dst_count, to_copy)`
(fuse_virtio.c lines 126-168): copy `toCopy` bytes from the
scatter/gather list `srcs` into the scatter/gather list `dsts`,
starting with `dst_offset = 0`.  The result is the contents of the
destination regions after the copy; `none` models a fired assertion. -/
def copy_iov (srcs dsts : List (List Nat)) (toCopy : Nat) :
    Option (List (List Nat)) :=
  copy_outer srcs [] dsts 0 toCopy

/-- Loop of `copy_from_iov` (fuse_virtio.c lines 114-120): copy each
region of `sg` in order into the buffer `buf` at increasing offsets,
starting at `destOff` (`dest = buf->mem` initially). -/
def copy_from_iov_loop (buf : List Nat) (destOff : Nat)
    (sg : List (List Nat)) : List Nat :=
  match sg with
  | [] => buf
  | r :: rs => copy_from_iov_loop (writeAt buf destOff r) (destOff + r.length) rs

/-- `copy_from_iov(buf, out_num, out_sg)` (fuse_virtio.c lines 109-121):
flatten the "out" scatter/gather list into the contiguous buffer
`buf` (`buf->mem`), region by region from offset 0. -/
def copy_from_iov (buf : List Nat) (sg : List (List Nat)) : List Nat :=
  copy_from_iov_loop buf 0 sg

/-- The POSIX `E2BIG` errno value. -/
def E2BIG : Int := 7

/-- Observable outcome of a completed `virtio_send_msg` call. -/
structure SendResult where
  /-- The C return value (`0` or `-E2BIG`). -/
  ret : Int
  /-- The contents of the element "in" regions after the call. -/
  in_sg : List (List Nat)
  /-- `some len` iff `vu_queue_push(..., elem, len)` was called. -/
  pushed : Option Nat
  /-- Whether `vu_queue_notify` was called. -/
  notified : Bool
deriving DecidableEq, Repr

/-- `virtio_send_msg(se, ch, iov, count)` (fuse_virtio.c lines 174-222).
`outHeaderSize` stands for `sizeof(struct fuse_out_header)`; `unique`
stands for `((struct fuse_out_header *)iov[0].iov_base)->unique`; `iov`
is the reply scatter/gather list (`count = iov.length`); `in_sg` the
contents of the "in" regions of the in-progress element
(`elem->in_sg, elem->in_num`).  `none` models a fired assertion
(`assert(count >= 1)`, `assert(iov[0].iov_len >= sizeof(...))`,
`assert(out->unique)`, or an assertion inside `copy_iov`). -/
def virtio_send_msg (outHeaderSize : Nat) (unique : Nat)
    (iov : List (List Nat)) (in_sg : List (List Nat)) : Option SendResult :=
  match iov with
  | [] => none
  | first :: _ =>
    if first.length < outHeaderSize then none
    else if unique = 0 then none
    else if iov_length in_sg < outHeaderSize then
      some ⟨-E2BIG, in_sg, none, false⟩
    else if iov_length in_sg < iov_length iov then
      some ⟨-E2BIG, in_sg, none, false⟩
    else
      match copy_iov iov in_sg (iov_length iov) with
      | none => none
      | some sg => some ⟨0, sg, some (iov_length iov), true⟩

/-- Observable outcome of one run of the inner drain
loop of `fv_queue_thread` (fuse_virtio.c lines 288-335) over a list of
popped elements. -/
structure DrainResult where
  /-- `fbuf.mem`: the request buffer (`none` = not yet allocated). -/
  fbuf : Option (List Nat)
  /-- Number of `malloc(se->bufsize)` calls performed. -/
  nallocs : Nat
  /-- The `fuse_session_process_buf_int` invocations, in order: for each,
  the request buffer contents (`fbuf.mem`) and `fbuf.size`. -/
  calls : List (List Nat × Nat)
  /-- Whether the run ended in a fired `assert` (process abort). -/
  aborted : Bool
deriving DecidableEq, Repr

/-- The per-element drain loop of `fv_queue_thread` (fuse_virtio.c lines
288-335).  `inHeaderSize` stands for `sizeof(struct fuse_in_header)`,
`bufsize` for `se->bufsize`, `fresh` for the (uninitialised) block a
`malloc(se->bufsize)` would return, `elems` for the per-element "out"
scatter/gather lists in pop order.  Per element: lazily allocate
`fbuf.mem` (with `assert(se->bufsize > sizeof(struct fuse_in_header))`),
abort (`assert(0)`) when the total "out" length of the element is below
`sizeof(struct fuse_in_header)` or above `se->bufsize`, otherwise
`copy_from_iov` into the buffer, set `fbuf.size`, and invoke the
session processor. -/
def fv_queue_thread_drain (inHeaderSize bufsize : Nat) (fresh : List Nat)
    (fbuf : Option (List Nat)) (nallocs : Nat)
    (elems : List (List (List Nat))) : DrainResult :=
  match elems with
  | [] => ⟨fbuf, nallocs, [], false⟩
  | e :: es =>
    match fbuf with
    | none =>
      if bufsize ≤ inHeaderSize then ⟨some fresh, nallocs + 1, [], true⟩
      else if iov_length e < inHeaderSize then ⟨some fresh, nallocs + 1, [], true⟩
      else if bufsize < iov_length e then ⟨some fresh, nallocs + 1, [], true⟩
      else
        let r := fv_queue_thread_drain inHeaderSize bufsize fresh
          (some (copy_from_iov fresh e)) (nallocs + 1) es
        ⟨r.fbuf, r.nallocs, (copy_from_iov fresh e, iov_length e) :: r.calls,
          r.aborted⟩
    | some b =>
      if iov_length e < inHeaderSize then ⟨some b, nallocs, [], true⟩
      else if bufsize < iov_length e then ⟨some b, nallocs, [], true⟩
      else
        let r := fv_queue_thread_drain inHeaderSize bufsize fresh
          (some (copy_from_iov b e)) nallocs es
        ⟨r.fbuf, r.nallocs, (copy_from_iov b e, iov_length e) :: r.calls,
          r.aborted⟩

/-- One `struct fv_QueueInfo` record (fuse_virtio.c lines 39-49), as far
as `fv_queue_set_started` touches it.  `thread` is the opaque
`pthread_t` handle written by `pthread_create`; `qidx` the queue index;
`kick_fd` the kick eventfd (`-1` marks a stopped queue). -/
structure QueueInfo where
  thread : Nat
  qidx : Nat
  kick_fd : Int
deriving DecidableEq, Repr

/-- `fv_queue_set_started(dev, qidx, started)` (fuse_virtio.c lines
344-394) acting on the queue table `vud->qi` (length `vud->nqueues`;
a `none` entry is a NULL pointer).  `devKickFd` stands for
`dev->vq[qidx].kick_fd`; `newThread` for the `pthread_t` handle a
successful `pthread_create` writes.  Returns the updated table together
with whether a worker thread was spawned; `none` models a fired
assertion (double start with a live kick fd, stop of an out-of-bounds
queue) or the NULL dereference on stopping a never-started queue. -/
def fv_queue_set_started (st : List (Option QueueInfo)) (qidx : Nat)
    (started : Bool) (devKickFd : Int) (newThread : Nat) :
    Option (List (Option QueueInfo) × Bool) :=
  if qidx = 0 then some (st, false)
  else if started then
    let st1 := if st.length ≤ qidx
      then st ++ List.replicate (qidx + 1 - st.length) none
      else st
    match st1[qidx]? with
    | some none =>
      some (st1.set qidx (some ⟨newThread, qidx, devKickFd⟩), true)
    | some (some r) =>
      if r.kick_fd = -1 then
        some (st1.set qidx (some ⟨newThread, r.qidx, devKickFd⟩), true)
      else none
    | none => none
  else
    match st[qidx]? with
    | some (some r) => some (st.set qidx (some ⟨r.thread, r.qidx, -1⟩), false)
    | some none => none
    | none => none

example : copy_iov [[1,2,3],[4,5]] [[9,9],[9,9,9]] 4 =
    some [[1,2],[3,4,9]] := by
  simp [copy_iov, copy_outer, copy_inner, writeAt, iov_length, List.take]

example : copy_iov [[1,2],[3]] [[9],[],[9,9,9]] 3 =
    some [[1],[],[2,3,9]] := by
  simp [copy_iov, copy_outer, copy_inner, writeAt, iov_length, List.take]

theorem writeAt_nil (r : List Nat) (off : Nat) : writeAt r off [] = r := by
  simp [writeAt, List.take_append_drop]

theorem writeAt_length (r : List Nat) (off : Nat) (b : List Nat)
    (h : off + b.length ≤ r.length) : (writeAt r off b).length = r.length := by
  simp [writeAt]
  omega

theorem length_take_add (F : List Nat) (p : Nat) (c : List Nat)
    (h : p ≤ F.length) : (F.take p ++ c).length = p + c.length := by
  simp
  omega

theorem writeAt_writeAt (F : List Nat) (p : Nat) (c₁ c₂ : List Nat)
    (h : p ≤ F.length) :
    writeAt (writeAt F p c₁) (p + c₁.length) c₂ = writeAt F p (c₁ ++ c₂) := by
  have hA : (F.take p ++ c₁).length = p + c₁.length := length_take_add F p c₁ h
  show ((F.take p ++ c₁) ++ F.drop (p + c₁.length)).take (p + c₁.length) ++ c₂ ++
      ((F.take p ++ c₁) ++ F.drop (p + c₁.length)).drop (p + c₁.length + c₂.length)
    = F.take p ++ (c₁ ++ c₂) ++ F.drop (p + (c₁ ++ c₂).length)
  rw [List.take_left' hA, List.drop_append_eq_append_drop,
    List.drop_eq_nil_of_le (by omega), List.drop_drop, hA]
  simp [List.append_assoc]
  congr 1
  omega

theorem writeAt_append_mid (A B C : List Nat) (off : Nat) (b : List Nat)
    (h : off + b.length ≤ B.length) :
    writeAt (A ++ (B ++ C)) (A.length + off) b
      = A ++ (writeAt B off b ++ C) := by
  show (A ++ (B ++ C)).take (A.length + off) ++ b ++
      (A ++ (B ++ C)).drop (A.length + off + b.length)
    = A ++ ((B.take off ++ b ++ B.drop (off + b.length)) ++ C)
  rw [List.take_append_eq_append_take, List.drop_append_eq_append_drop,
    List.take_of_length_le (by omega), List.drop_eq_nil_of_le (by omega),
    show A.length + off - A.length = off from by omega,
    show A.length + off + b.length - A.length = off + b.length from by omega,
    List.take_append_eq_append_take,
    show off - B.length = 0 from by omega, List.take_zero,
    List.drop_append_eq_append_drop,
    show off + b.length - B.length = 0 from by omega, List.drop_zero]
  simp [List.append_assoc]

/-- Invariant maintained by `copy_iov` between writes: the current
destination offset never exceeds the length of the current destination
region (and is `0` when no destination regions remain). -/
def RestInv (rest : List (List Nat)) (dstOff : Nat) : Prop :=
  match rest with
  | [] => dstOff = 0
  | d :: _ => dstOff ≤ d.length

theorem RestInv_zero (rest : List (List Nat)) : RestInv rest 0 := by
  cases rest <;> simp [RestInv]

theorem copy_inner_zeroLen (src : List Nat) (srcOff : Nat)
    (done rest : List (List Nat)) (dstOff toCopy : Nat) :
    copy_inner src srcOff 0 done rest dstOff toCopy
      = some (done, rest, dstOff, toCopy) := by
  rw [copy_inner.eq_def]
  simp

theorem copy_inner_cons_adv (src : List Nat) (srcOff srcLen : Nat)
    (done : List (List Nat)) (d : List Nat) (ds : List (List Nat))
    (dstOff toCopy : Nat) (h : srcLen ≠ 0)
    (h1 : ¬ d.length < dstOff + min (d.length - dstOff) srcLen)
    (h2 : dstOff + min (d.length - dstOff) srcLen = d.length) :
    copy_inner src srcOff srcLen done (d :: ds) dstOff toCopy
      = copy_inner src (srcOff + min (d.length - dstOff) srcLen)
          (srcLen - min (d.length - dstOff) srcLen)
          (done ++ [writeAt d dstOff
            ((src.drop srcOff).take (min (d.length - dstOff) srcLen))])
          ds 0 (toCopy - min (d.length - dstOff) srcLen) := by
  conv_lhs => rw [copy_inner.eq_def]
  rw [dif_neg h]
  change (if _h1 : d.length < dstOff + min (d.length - dstOff) srcLen then none
    else if _h2 : dstOff + min (d.length - dstOff) srcLen = d.length then
      copy_inner src (srcOff + min (d.length - dstOff) srcLen)
        (srcLen - min (d.length - dstOff) srcLen)
        (done ++ [writeAt d dstOff
          ((src.drop srcOff).take (min (d.length - dstOff) srcLen))])
        ds 0 (toCopy - min (d.length - dstOff) srcLen)
    else
      copy_inner src (srcOff + min (d.length - dstOff) srcLen)
        (srcLen - min (d.length - dstOff) srcLen)
        done
        (writeAt d dstOff
          ((src.drop srcOff).take (min (d.length - dstOff) srcLen)) :: ds)
        (dstOff + min (d.length - dstOff) srcLen)
        (toCopy - min (d.length - dstOff) srcLen)) = _
  rw [dif_neg h1, dif_pos h2]

theorem copy_inner_cons_stay (src : List Nat) (srcOff srcLen : Nat)
    (done : List (List Nat)) (d : List Nat) (ds : List (List Nat))
    (dstOff toCopy : Nat) (h : srcLen ≠ 0)
    (h1 : ¬ d.length < dstOff + min (d.length - dstOff) srcLen)
    (h2 : ¬ dstOff + min (d.length - dstOff) srcLen = d.length) :
    copy_inner src srcOff srcLen done (d :: ds) dstOff toCopy
      = copy_inner src (srcOff + min (d.length - dstOff) srcLen)
          (srcLen - min (d.length - dstOff) srcLen)
          done
          (writeAt d dstOff
            ((src.drop srcOff).take (min (d.length - dstOff) srcLen)) :: ds)
          (dstOff + min (d.length - dstOff) srcLen)
          (toCopy - min (d.length - dstOff) srcLen) := by
  conv_lhs => rw [copy_inner.eq_def]
  rw [dif_neg h]
  change (if _h1 : d.length < dstOff + min (d.length - dstOff) srcLen then none
    else if _h2 : dstOff + min (d.length - dstOff) srcLen = d.length then
      copy_inner src (srcOff + min (d.length - dstOff) srcLen)
        (srcLen - min (d.length - dstOff) srcLen)
        (done ++ [writeAt d dstOff
          ((src.drop srcOff).take (min (d.length - dstOff) srcLen))])
        ds 0 (toCopy - min (d.length - dstOff) srcLen)
    else
      copy_inner src (srcOff + min (d.length - dstOff) srcLen)
        (srcLen - min (d.length - dstOff) srcLen)
        done
        (writeAt d dstOff
          ((src.drop srcOff).take (min (d.length - dstOff) srcLen)) :: ds)
        (dstOff + min (d.length - dstOff) srcLen)
        (toCopy - min (d.length - dstOff) srcLen)) = _
  rw [dif_neg h1, dif_neg h2]

theorem iov_length_nil : iov_length [] = 0 := rfl

theorem iov_length_cons (d : List Nat) (ds : List (List Nat)) :
    iov_length (d :: ds) = d.length + iov_length ds := by
  simp [iov_length]

theorem iov_length_append (a b : List (List Nat)) :
    iov_length (a ++ b) = iov_length a + iov_length b := by
  simp [iov_length]

theorem flatten_length_eq (l : List (List Nat)) :
    l.flatten.length = iov_length l :=
  List.length_flatten l

/-- Combining one `memcpy` step of `copy_iov` with the copy of the rest
of the current source region: writing the next `srcLen - m` source bytes
right after the first `m` equals writing all `srcLen` bytes at once. -/
theorem copy_step_combine (A d C : List Nat) (dstOff m srcLen srcOff : Nat)
    (src : List Nat) (hm2 : m ≤ srcLen) (hOffm : dstOff + m ≤ d.length)
    (hsrc : srcOff + srcLen ≤ src.length) :
    writeAt (A ++ (writeAt d dstOff ((src.drop srcOff).take m) ++ C))
        (A.length + dstOff + m) ((src.drop (srcOff + m)).take (srcLen - m))
      = writeAt (A ++ (d ++ C)) (A.length + dstOff)
          ((src.drop srcOff).take srcLen) := by
  have hchunk : ((src.drop srcOff).take m).length = m := by
    simp [List.length_take, List.length_drop]
    omega
  rw [← writeAt_append_mid A d C dstOff ((src.drop srcOff).take m)
    (by rw [hchunk]; omega)]
  rw [show A.length + dstOff + m
      = (A.length + dstOff) + ((src.drop srcOff).take m).length from by
    rw [hchunk]]
  rw [writeAt_writeAt _ _ _ _ (by simp [List.length_take, List.length_drop]; omega)]
  congr 1
  rw [← List.drop_drop, ← List.take_add]
  congr 1
  omega

theorem copy_inner_spec_zero (src : List Nat) (srcOff : Nat)
    (done rest : List (List Nat)) (dstOff toCopy : Nat)
    (hInv : RestInv rest dstOff) :
    ∃ done' rest' dstOff',
      copy_inner src srcOff 0 done rest dstOff toCopy
        = some (done', rest', dstOff', toCopy - 0)
      ∧ RestInv rest' dstOff'
      ∧ done'.map List.length ++ rest'.map List.length
          = done.map List.length ++ rest.map List.length
      ∧ done'.flatten.length + dstOff' = done.flatten.length + dstOff + 0
      ∧ done'.flatten ++ rest'.flatten
          = writeAt (done.flatten ++ rest.flatten)
              (done.flatten.length + dstOff) ((src.drop srcOff).take 0) :=
  ⟨done, rest, dstOff, copy_inner_zeroLen src srcOff done rest dstOff toCopy,
    hInv, rfl, rfl, (writeAt_nil _ _).symm⟩

/-- Specification of the inner loop of `copy_iov`: given enough
destination capacity, the inner loop succeeds, preserves the
destination region shape, advances the flat destination position by
`srcLen`, and its effect on the flattened destination bytes is a single
contiguous `writeAt` of the source chunk. -/
theorem copy_inner_spec (n : Nat) :
    ∀ (src : List Nat) (srcOff srcLen : Nat)
      (done rest : List (List Nat)) (dstOff toCopy : Nat),
      srcLen + rest.length ≤ n →
      RestInv rest dstOff →
      srcLen ≤ toCopy →
      dstOff + srcLen ≤ rest.flatten.length →
      srcOff + srcLen ≤ src.length →
      ∃ done' rest' dstOff',
        copy_inner src srcOff srcLen done rest dstOff toCopy
          = some (done', rest', dstOff', toCopy - srcLen)
        ∧ RestInv rest' dstOff'
        ∧ done'.map List.length ++ rest'.map List.length
            = done.map List.length ++ rest.map List.length
        ∧ done'.flatten.length + dstOff' = done.flatten.length + dstOff + srcLen
        ∧ done'.flatten ++ rest'.flatten
            = writeAt (done.flatten ++ rest.flatten)
                (done.flatten.length + dstOff) ((src.drop srcOff).take srcLen) := by
  induction n with
  | zero =>
    intro src srcOff srcLen done rest dstOff toCopy hn hInv _ _ _
    have hz : srcLen = 0 := by omega
    subst hz
    exact copy_inner_spec_zero src srcOff done rest dstOff toCopy hInv
  | succ n ih =>
    intro src srcOff srcLen done rest dstOff toCopy hn hInv hle hcap hsrc
    by_cases hz : srcLen = 0
    · subst hz
      exact copy_inner_spec_zero src srcOff done rest dstOff toCopy hInv
    · cases rest with
      | nil =>
        exfalso
        have h0 : dstOff = 0 := hInv
        simp at hcap
        omega
      | cons d ds =>
        have hOff : dstOff ≤ d.length := hInv
        have hm1 : min (d.length - dstOff) srcLen ≤ d.length - dstOff :=
          min_le_left _ _
        have hm2 : min (d.length - dstOff) srcLen ≤ srcLen := min_le_right _ _
        have h1 : ¬ d.length < dstOff + min (d.length - dstOff) srcLen := by
          omega
        have hchunk : ((src.drop srcOff).take
            (min (d.length - dstOff) srcLen)).length
            = min (d.length - dstOff) srcLen := by
          simp [List.length_take, List.length_drop]
          omega
        have hnewd : (writeAt d dstOff ((src.drop srcOff).take
            (min (d.length - dstOff) srcLen))).length = d.length :=
          writeAt_length d dstOff _ (by rw [hchunk]; omega)
        have hcap' : dstOff + srcLen ≤ d.length + ds.flatten.length := by
          simpa using hcap
        by_cases h2 : dstOff + min (d.length - dstOff) srcLen = d.length
        · -- the write exactly fills the current destination region: advance
          rw [copy_inner_cons_adv src srcOff srcLen done d ds dstOff toCopy
            hz h1 h2]
          obtain ⟨done', rest', dstOff', heq, hInv', hshape, hpos, hflat⟩ :=
            ih src (srcOff + min (d.length - dstOff) srcLen)
              (srcLen - min (d.length - dstOff) srcLen)
              (done ++ [writeAt d dstOff ((src.drop srcOff).take
                (min (d.length - dstOff) srcLen))])
              ds 0 (toCopy - min (d.length - dstOff) srcLen)
              (by simp at hn ⊢; omega)
              (RestInv_zero ds)
              (by omega)
              (by omega)
              (by omega)
          rw [show (toCopy - min (d.length - dstOff) srcLen)
              - (srcLen - min (d.length - dstOff) srcLen)
              = toCopy - srcLen from by omega] at heq
          refine ⟨done', rest', dstOff', heq, hInv', ?_, ?_, ?_⟩
          · simpa [hnewd] using hshape
          · simp only [List.flatten_append, List.flatten_cons,
              List.flatten_nil, List.append_nil, List.length_append,
              hnewd] at hpos
            omega
          · rw [hflat]
            simp only [List.flatten_append, List.flatten_cons,
              List.flatten_nil, List.append_nil, List.length_append, hnewd,
              Nat.add_zero, List.append_assoc]
            rw [show done.flatten.length + d.length
                = done.flatten.length + dstOff
                  + min (d.length - dstOff) srcLen from by omega]
            rw [copy_step_combine done.flatten d ds.flatten dstOff
              (min (d.length - dstOff) srcLen) srcLen srcOff src hm2
              (by omega) hsrc]
        · -- the current destination region still has room: stay
          rw [copy_inner_cons_stay src srcOff srcLen done d ds dstOff toCopy
            hz h1 h2]
          have hmpos : 0 < min (d.length - dstOff) srcLen := by omega
          obtain ⟨done', rest', dstOff', heq, hInv', hshape, hpos, hflat⟩ :=
            ih src (srcOff + min (d.length - dstOff) srcLen)
              (srcLen - min (d.length - dstOff) srcLen)
              done
              (writeAt d dstOff ((src.drop srcOff).take
                (min (d.length - dstOff) srcLen)) :: ds)
              (dstOff + min (d.length - dstOff) srcLen)
              (toCopy - min (d.length - dstOff) srcLen)
              (by simp at hn ⊢; omega)
              (by simp only [RestInv, hnewd]; omega)
              (by omega)
              (by simp [hnewd]; omega)
              (by omega)
          rw [show (toCopy - min (d.length - dstOff) srcLen)
              - (srcLen - min (d.length - dstOff) srcLen)
              = toCopy - srcLen from by omega] at heq
          refine ⟨done', rest', dstOff', heq, hInv', ?_, ?_, ?_⟩
          · simpa [hnewd] using hshape
          · omega
          · rw [hflat]
            simp only [List.flatten_cons, List.append_assoc]
            rw [show done.flatten.length + (dstOff + min (d.length - dstOff) srcLen)
                = done.flatten.length + dstOff
                  + min (d.length - dstOff) srcLen from by omega]
            rw [copy_step_combine done.flatten d ds.flatten dstOff
              (min (d.length - dstOff) srcLen) srcLen srcOff src hm2
              (by omega) hsrc]

theorem copy_outer_zero (srcs done rest : List (List Nat)) (dstOff : Nat) :
    copy_outer srcs done rest dstOff 0 = some (done ++ rest) := by
  rw [copy_outer.eq_def]
  simp

theorem copy_outer_cons (s : List Nat) (ss done rest : List (List Nat))
    (dstOff toCopy : Nat) (h : toCopy ≠ 0) :
    copy_outer (s :: ss) done rest dstOff toCopy
      = match copy_inner s 0 (min s.length toCopy) done rest dstOff toCopy with
        | none => none
        | some (done', rest', dstOff', toCopy') =>
          copy_outer ss done' rest' dstOff' toCopy' := by
  rw [copy_outer.eq_def, if_neg h]

/-- Specification of the outer loop of `copy_iov`: with enough source
bytes and destination capacity, the loop succeeds, preserves the
destination region shape, and writes the first `toCopy` flattened
source bytes contiguously at the current flat destination position. -/
theorem copy_outer_spec :
    ∀ (srcs done rest : List (List Nat)) (dstOff toCopy : Nat),
      RestInv rest dstOff →
      dstOff + toCopy ≤ rest.flatten.length →
      toCopy ≤ srcs.flatten.length →
      ∃ out, copy_outer srcs done rest dstOff toCopy = some out
        ∧ out.map List.length = done.map List.length ++ rest.map List.length
        ∧ out.flatten = writeAt (done.flatten ++ rest.flatten)
            (done.flatten.length + dstOff) (srcs.flatten.take toCopy) := by
  intro srcs
  induction srcs with
  | nil =>
    intro done rest dstOff toCopy hInv hcap hsrc
    have h0 : toCopy = 0 := by simpa using hsrc
    subst h0
    exact ⟨done ++ rest, copy_outer_zero _ _ _ _, by simp,
      by simp [writeAt_nil]⟩
  | cons s ss ihs =>
    intro done rest dstOff toCopy hInv hcap hsrc
    by_cases h0 : toCopy = 0
    · subst h0
      exact ⟨done ++ rest, copy_outer_zero _ _ _ _, by simp,
        by simp [writeAt_nil]⟩
    · rw [copy_outer_cons s ss done rest dstOff toCopy h0]
      obtain ⟨done', rest', dstOff', heq, hInv', hshape, hpos, hflat⟩ :=
        copy_inner_spec (min s.length toCopy + rest.length) s 0
          (min s.length toCopy) done rest dstOff toCopy (Nat.le_refl _)
          hInv (min_le_right _ _) (by omega) (by omega)
      rw [heq]
      have hsum : done'.flatten.length + rest'.flatten.length
          = done.flatten.length + rest.flatten.length := by
        have h := congrArg List.sum hshape
        simp only [List.sum_append] at h
        simp only [List.length_flatten]
        exact h
      have hsrc' : toCopy ≤ s.length + ss.flatten.length := by
        simpa using hsrc
      obtain ⟨out, houte, houtshape, houtflat⟩ :=
        ihs done' rest' dstOff' (toCopy - min s.length toCopy)
          hInv' (by omega) (by omega)
      have hc : ((s.drop 0).take (min s.length toCopy)).length
          = min s.length toCopy := by
        simp
      have hposc : done'.flatten.length + dstOff'
          = (done.flatten.length + dstOff)
            + ((s.drop 0).take (min s.length toCopy)).length := by
        rw [hc]
        omega
      refine ⟨out, houte, houtshape.trans hshape, ?_⟩
      rw [houtflat, hflat]
      rw [hposc]
      rw [writeAt_writeAt (done.flatten ++ rest.flatten)
        (done.flatten.length + dstOff)
        ((s.drop 0).take (min s.length toCopy))
        (ss.flatten.take (toCopy - min s.length toCopy))
        (by simp only [List.length_append]; omega)]
      congr 1
      simp only [List.drop_zero, List.flatten_cons,
        List.take_append_eq_append_take]
      rcases Nat.le_total s.length toCopy with hst | hst
      · rw [min_eq_left hst, List.take_length, List.take_of_length_le hst]
      · rw [min_eq_right hst, show toCopy - toCopy = 0 from by omega,
          show toCopy - s.length = 0 from by omega]

/-- Top-level specification of `copy_iov`: with at least `L` source
bytes and at least `L` bytes of destination capacity, the copy
succeeds, every destination region keeps its length, and the flattened
destination equals the first `L` flattened source bytes followed by the
untouched old destination bytes. -/
theorem copy_iov_spec (srcs dsts : List (List Nat)) (L : Nat)
    (hs : L ≤ srcs.flatten.length) (hd : L ≤ dsts.flatten.length) :
    ∃ out, copy_iov srcs dsts L = some out
      ∧ out.map List.length = dsts.map List.length
      ∧ out.flatten = srcs.flatten.take L ++ dsts.flatten.drop L := by
  obtain ⟨out, heq, hshape, hflat⟩ :=
    copy_outer_spec srcs [] dsts 0 L (RestInv_zero dsts) (by simpa using hd) hs
  refine ⟨out, heq, by simpa using hshape, ?_⟩
  rw [hflat]
  simp only [List.flatten_nil, List.nil_append, List.length_nil,
    Nat.zero_add, writeAt, List.take_zero, List.length_take]
  rw [Nat.min_eq_left hs]

/-- Prefix form of `copy_iov_spec`: the first `L` flattened destination
bytes after the copy are the first `L` flattened source bytes. -/
theorem copy_iov_first_bytes (srcs dsts : List (List Nat)) (L : Nat)
    (hs : L ≤ iov_length srcs) (hd : L ≤ iov_length dsts) :
    ∃ out, copy_iov srcs dsts L = some out
      ∧ out.flatten.take L = srcs.flatten.take L := by
  rw [← flatten_length_eq] at hs hd
  obtain ⟨out, heq, _, hflat⟩ := copy_iov_spec srcs dsts L hs hd
  have hc : (srcs.flatten.take L).length = L := by
    simp only [List.length_take]
    omega
  refine ⟨out, heq, ?_⟩
  rw [hflat, List.take_append_eq_append_take, hc,
    show L - L = 0 from by omega, List.take_zero, List.append_nil,
    List.take_take, Nat.min_self]

/-- C1: for every source region list whose lengths sum to at least `L`
and every destination region list whose lengths sum to at least `L`,
`copy_iov` with `to_copy = L` produces a destination byte sequence whose
first `L` bytes equal the first `L` bytes of the flattened source
sequence, regardless of how `L` is partitioned across regions on either
side. -/
theorem copy_iov_shape_independence (srcs dsts : List (List Nat)) (L : Nat)
    (hs : L ≤ iov_length srcs) (hd : L ≤ iov_length dsts) :
    ∃ out, copy_iov srcs dsts L = some out
      ∧ out.flatten.take L = srcs.flatten.take L :=
  copy_iov_first_bytes srcs dsts L hs hd

theorem copy_iov_shape_independence_witness :
    (3 ≤ iov_length [[1,2],[3,4]] ∧ 3 ≤ iov_length [[9],[9,9,9]])
    ∧ (∃ out, copy_iov [[1,2],[3,4]] [[9],[9,9,9]] 3 = some out
        ∧ out.flatten.take 3 = ([[1,2],[3,4]] : List (List Nat)).flatten.take 3) :=
  ⟨⟨by decide, by decide⟩,
    copy_iov_shape_independence [[1,2],[3,4]] [[9],[9,9,9]] 3
      (by decide) (by decide)⟩

/-- C10: for every pair of region lists and every `to_copy` such that
source lengths sum to at least `to_copy` and destination lengths sum to
at least `to_copy` (zero-length regions permitted), `copy_iov` runs to
completion with no assertion firing (the result is `some`, never
`none`; the Lean model is structurally total, matching termination of
the C loops) and every write stays within the bounds of its destination
region (each destination region keeps exactly its length). -/
theorem copy_iov_safety (srcs dsts : List (List Nat)) (L : Nat)
    (hs : L ≤ iov_length srcs) (hd : L ≤ iov_length dsts) :
    ∃ out, copy_iov srcs dsts L = some out
      ∧ out.map List.length = dsts.map List.length := by
  rw [← flatten_length_eq] at hs hd
  obtain ⟨out, heq, hshape, _⟩ := copy_iov_spec srcs dsts L hs hd
  exact ⟨out, heq, hshape⟩

theorem copy_iov_safety_witness :
    (4 ≤ iov_length [[],[1,2,3,4]] ∧ 4 ≤ iov_length [[5],[],[6,7],[8,9]])
    ∧ (∃ out, copy_iov [[],[1,2,3,4]] [[5],[],[6,7],[8,9]] 4 = some out
        ∧ out.map List.length
            = ([[5],[],[6,7],[8,9]] : List (List Nat)).map List.length) :=
  ⟨⟨by decide, by decide⟩,
    copy_iov_safety [[],[1,2,3,4]] [[5],[],[6,7],[8,9]] 4
      (by decide) (by decide)⟩

/-- Specification of the `copy_from_iov` loop: flattening into a large
enough buffer writes the concatenated region bytes contiguously at the
current offset. -/
theorem copy_from_iov_loop_spec :
    ∀ (sg : List (List Nat)) (buf : List Nat) (destOff : Nat),
      destOff + iov_length sg ≤ buf.length →
      copy_from_iov_loop buf destOff sg = writeAt buf destOff sg.flatten := by
  intro sg
  induction sg with
  | nil =>
    intro buf destOff _
    exact (writeAt_nil buf destOff).symm
  | cons r rs ih =>
    intro buf destOff h
    rw [iov_length_cons] at h
    have hr : destOff + r.length ≤ buf.length := by omega
    rw [copy_from_iov_loop]
    rw [ih (writeAt buf destOff r) (destOff + r.length)
      (by rw [writeAt_length buf destOff r hr]; omega)]
    rw [writeAt_writeAt buf destOff r rs.flatten (by omega),
      List.flatten_cons]

theorem copy_from_iov_spec (buf : List Nat) (sg : List (List Nat))
    (h : iov_length sg ≤ buf.length) :
    copy_from_iov buf sg = sg.flatten ++ buf.drop (iov_length sg) := by
  rw [copy_from_iov, copy_from_iov_loop_spec sg buf 0 (by omega)]
  simp only [writeAt, List.take_zero, List.nil_append, Nat.zero_add,
    flatten_length_eq]

theorem copy_from_iov_length (buf : List Nat) (sg : List (List Nat))
    (h : iov_length sg ≤ buf.length) :
    (copy_from_iov buf sg).length = buf.length := by
  rw [copy_from_iov_spec buf sg h]
  simp only [List.length_append, List.length_drop, flatten_length_eq]
  omega

/-- C5: for every chain whose "out" region lengths sum to at most the
destination buffer capacity, `copy_from_iov` populates the destination
so that its first sum-of-lengths bytes equal the concatenation of the
out-region bytes in region order. -/
theorem copy_from_iov_flattens (buf : List Nat) (sg : List (List Nat))
    (h : iov_length sg ≤ buf.length) :
    (copy_from_iov buf sg).take (iov_length sg) = sg.flatten := by
  rw [copy_from_iov_spec buf sg h, List.take_append_eq_append_take,
    List.take_of_length_le (by rw [flatten_length_eq]),
    show iov_length sg - sg.flatten.length = 0 from by
      rw [flatten_length_eq]; omega,
    List.take_zero, List.append_nil]

theorem copy_from_iov_flattens_witness :
    (iov_length [[1,2],[3],[4,5]] ≤ ([9,9,9,9,9,9,9] : List Nat).length)
    ∧ (copy_from_iov [9,9,9,9,9,9,9] [[1,2],[3],[4,5]]).take
        (iov_length [[1,2],[3],[4,5]])
      = ([[1,2],[3],[4,5]] : List (List Nat)).flatten :=
  ⟨by decide,
    copy_from_iov_flattens [9,9,9,9,9,9,9] [[1,2],[3],[4,5]] (by decide)⟩

/-- C3: whenever the total reserved "in" capacity of the in-progress
chain is smaller than the reply-header size or smaller than the total
reply length, `virtio_send_msg` fails with `-E2BIG` and performs no
copy into the "in" regions, no completion push, and no guest
notification. -/
theorem virtio_send_msg_reply_too_large (outHeaderSize unique : Nat)
    (first : List Nat) (iovRest in_sg : List (List Nat))
    (hhdr : outHeaderSize ≤ first.length) (hu : unique ≠ 0)
    (hsmall : iov_length in_sg < outHeaderSize
      ∨ iov_length in_sg < iov_length (first :: iovRest)) :
    virtio_send_msg outHeaderSize unique (first :: iovRest) in_sg
      = some ⟨-E2BIG, in_sg, none, false⟩ := by
  rw [virtio_send_msg, if_neg (by omega), if_neg hu]
  by_cases h1 : iov_length in_sg < outHeaderSize
  · rw [if_pos h1]
  · rw [if_neg h1, if_pos (hsmall.resolve_left h1)]

theorem virtio_send_msg_reply_too_large_witness :
    (2 ≤ ([0,0] : List Nat).length ∧ (7 : Nat) ≠ 0
      ∧ (iov_length [[1]] < 2 ∨ iov_length [[1]] < iov_length [[0,0],[3]]))
    ∧ virtio_send_msg 2 7 [[0,0],[3]] [[1]]
        = some ⟨-E2BIG, [[1]], none, false⟩ :=
  ⟨⟨by decide, by decide, by decide⟩,
    virtio_send_msg_reply_too_large 2 7 [0,0] [[3]] [[1]]
      (by decide) (by decide) (by decide)⟩

/-- C4: a reply whose header correlation identifier (`unique`) is `0`
fails fast: `virtio_send_msg` hits `assert(out->unique)` (modelled by
the `none` result), so no copy into the "in" regions, no push, and no
notification ever happens. -/
theorem virtio_send_msg_zero_unique (outHeaderSize : Nat)
    (iov in_sg : List (List Nat)) :
    virtio_send_msg outHeaderSize 0 iov in_sg = none := by
  cases iov with
  | nil => rfl
  | cons first iovRest =>
    rw [virtio_send_msg]
    by_cases h : first.length < outHeaderSize
    · rw [if_pos h]
    · rw [if_neg h, if_pos rfl]

/-- C6: on the success path (non-zero correlation identifier, "in"
capacity at least the reply-header size and at least the total reply
length), `virtio_send_msg` copies the reply bytes into the chain "in"
regions, pushes the chain as completed with the total reply length,
notifies the guest, and returns `0`. -/
theorem virtio_send_msg_success (outHeaderSize unique : Nat)
    (first : List Nat) (iovRest in_sg : List (List Nat))
    (hhdr : outHeaderSize ≤ first.length) (hu : unique ≠ 0)
    (h1 : outHeaderSize ≤ iov_length in_sg)
    (h2 : iov_length (first :: iovRest) ≤ iov_length in_sg) :
    ∃ sg, virtio_send_msg outHeaderSize unique (first :: iovRest) in_sg
        = some ⟨0, sg, some (iov_length (first :: iovRest)), true⟩
      ∧ sg.flatten.take (iov_length (first :: iovRest))
          = (first :: iovRest).flatten := by
  obtain ⟨out, heq, hflat⟩ :=
    copy_iov_first_bytes (first :: iovRest) in_sg
      (iov_length (first :: iovRest)) (Nat.le_refl _)
      h2
  refine ⟨out, ?_, ?_⟩
  · rw [virtio_send_msg, if_neg (by omega), if_neg hu, if_neg (by omega),
      if_neg (by omega), heq]
  · rw [hflat, List.take_of_length_le (by rw [flatten_length_eq])]

theorem virtio_send_msg_success_witness :
    (2 ≤ ([0,0] : List Nat).length ∧ (7 : Nat) ≠ 0
      ∧ 2 ≤ iov_length [[8,8],[8]]
      ∧ iov_length [[0,0],[3]] ≤ iov_length [[8,8],[8]])
    ∧ ∃ sg, virtio_send_msg 2 7 [[0,0],[3]] [[8,8],[8]]
          = some ⟨0, sg, some (iov_length [[0,0],[3]]), true⟩
        ∧ sg.flatten.take (iov_length [[0,0],[3]])
            = ([[0,0],[3]] : List (List Nat)).flatten :=
  ⟨⟨by decide, by decide, by decide, by decide⟩,
    virtio_send_msg_success 2 7 [0,0] [[3]] [[8,8],[8]]
      (by decide) (by decide) (by decide) (by decide)⟩

/-- C2: a popped chain whose total "out" length is below the minimal
request-header size or above the configured maximum is rejected by the
queue worker (the loop aborts on `assert(0)`) without invoking the
session processor and without copying any chain data: the request
buffer content is exactly what it was before the chain was popped
(the freshly malloc-ed block if the buffer was only now allocated). -/
theorem fv_queue_thread_rejects_bad_chain (inHeaderSize bufsize : Nat)
    (fresh : List Nat) (fbuf : Option (List Nat)) (nallocs : Nat)
    (e : List (List Nat)) (es : List (List (List Nat)))
    (hbad : iov_length e < inHeaderSize ∨ bufsize < iov_length e) :
    (fv_queue_thread_drain inHeaderSize bufsize fresh fbuf nallocs
        (e :: es)).calls = []
    ∧ (fv_queue_thread_drain inHeaderSize bufsize fresh fbuf nallocs
        (e :: es)).aborted = true
    ∧ (fv_queue_thread_drain inHeaderSize bufsize fresh fbuf nallocs
        (e :: es)).fbuf = some (fbuf.getD fresh) := by
  cases fbuf with
  | none =>
    have h : fv_queue_thread_drain inHeaderSize bufsize fresh none nallocs
        (e :: es) = ⟨some fresh, nallocs + 1, [], true⟩ := by
      simp only [fv_queue_thread_drain]
      by_cases hc : bufsize ≤ inHeaderSize
      · rw [if_pos hc]
      · rw [if_neg hc]
        by_cases h1 : iov_length e < inHeaderSize
        · rw [if_pos h1]
        · rw [if_neg h1, if_pos (hbad.resolve_left h1)]
    rw [h]
    exact ⟨rfl, rfl, rfl⟩
  | some b =>
    have h : fv_queue_thread_drain inHeaderSize bufsize fresh (some b) nallocs
        (e :: es) = ⟨some b, nallocs, [], true⟩ := by
      simp only [fv_queue_thread_drain]
      by_cases h1 : iov_length e < inHeaderSize
      · rw [if_pos h1]
      · rw [if_neg h1, if_pos (hbad.resolve_left h1)]
    rw [h]
    exact ⟨rfl, rfl, rfl⟩

theorem fv_queue_thread_rejects_bad_chain_witness :
    (iov_length [[5]] < 2 ∨ 3 < iov_length [[5]])
    ∧ (fv_queue_thread_drain 2 3 [0,0,0] (some [7,7,7]) 1 [[[5]]]).calls = []
    ∧ (fv_queue_thread_drain 2 3 [0,0,0] (some [7,7,7]) 1 [[[5]]]).aborted
        = true
    ∧ (fv_queue_thread_drain 2 3 [0,0,0] (some [7,7,7]) 1 [[[5]]]).fbuf
        = some ((some [7,7,7] : Option (List Nat)).getD [0,0,0]) :=
  ⟨by decide,
    fv_queue_thread_rejects_bad_chain 2 3 [0,0,0] (some [7,7,7]) 1 [[5]] []
      (by decide)⟩

/-- Invariant of the drain loop of `fv_queue_thread`: the buffer is
allocated only when absent (at most one `malloc` per run, none if a
buffer already exists), and every buffer the loop holds or hands to the
session processor has capacity exactly `se->bufsize`. -/
theorem fv_queue_thread_drain_invariant (inHeaderSize bufsize : Nat)
    (fresh : List Nat) (hfresh : fresh.length = bufsize) :
    ∀ (elems : List (List (List Nat))) (fbuf : Option (List Nat))
      (nallocs : Nat),
      (∀ b, fbuf = some b → b.length = bufsize) →
      (fv_queue_thread_drain inHeaderSize bufsize fresh fbuf nallocs
          elems).nallocs
        = nallocs + (match fbuf with
          | none => match elems with | [] => 0 | _ :: _ => 1
          | some _ => 0)
      ∧ (∀ b, (fv_queue_thread_drain inHeaderSize bufsize fresh fbuf nallocs
          elems).fbuf = some b → b.length = bufsize)
      ∧ (∀ p ∈ (fv_queue_thread_drain inHeaderSize bufsize fresh fbuf nallocs
          elems).calls, (p.1 : List Nat).length = bufsize) := by
  intro elems
  induction elems with
  | nil =>
    intro fbuf nallocs hb
    cases fbuf with
    | none => exact ⟨rfl, hb, by intro p hp; cases hp⟩
    | some b => exact ⟨rfl, hb, by intro p hp; cases hp⟩
  | cons e es ih =>
    intro fbuf nallocs hb
    cases fbuf with
    | none =>
      simp only [fv_queue_thread_drain]
      by_cases hc : bufsize ≤ inHeaderSize
      · rw [if_pos hc]
        refine ⟨rfl, ?_, by intro p hp; cases hp⟩
        intro b hb'
        cases hb'
        exact hfresh
      · rw [if_neg hc]
        by_cases h1 : iov_length e < inHeaderSize
        · rw [if_pos h1]
          refine ⟨rfl, ?_, by intro p hp; cases hp⟩
          intro b hb'
          cases hb'
          exact hfresh
        · rw [if_neg h1]
          by_cases h2 : bufsize < iov_length e
          · rw [if_pos h2]
            refine ⟨rfl, ?_, by intro p hp; cases hp⟩
            intro b hb'
            cases hb'
            exact hfresh
          · rw [if_neg h2]
            have hlen : (copy_from_iov fresh e).length = bufsize := by
              rw [copy_from_iov_length fresh e (by omega)]
              exact hfresh
            obtain ⟨ih1, ih2, ih3⟩ :=
              ih (some (copy_from_iov fresh e)) (nallocs + 1)
                (by intro b hb'; cases hb'; exact hlen)
            refine ⟨by rw [ih1]; rfl, ih2, ?_⟩
            intro p hp
            rcases List.mem_cons.mp hp with hp1 | hp2
            · rw [hp1]
              exact hlen
            · exact ih3 p hp2
    | some b =>
      have hbl : b.length = bufsize := hb b rfl
      simp only [fv_queue_thread_drain]
      by_cases h1 : iov_length e < inHeaderSize
      · rw [if_pos h1]
        refine ⟨rfl, ?_, by intro p hp; cases hp⟩
        intro b' hb'
        cases hb'
        exact hbl
      · rw [if_neg h1]
        by_cases h2 : bufsize < iov_length e
        · rw [if_pos h2]
          refine ⟨rfl, ?_, by intro p hp; cases hp⟩
          intro b' hb'
          cases hb'
          exact hbl
        · rw [if_neg h2]
          have hlen : (copy_from_iov b e).length = bufsize := by
            rw [copy_from_iov_length b e (by omega)]
            exact hbl
          obtain ⟨ih1, ih2, ih3⟩ :=
            ih (some (copy_from_iov b e)) nallocs
              (by intro b' hb'; cases hb'; exact hlen)
          refine ⟨by rw [ih1], ih2, ?_⟩
          intro p hp
          rcases List.mem_cons.mp hp with hp1 | hp2
          · rw [hp1]
            exact hlen
          · exact ih3 p hp2

/-- C7: across the chains processed in one run of the drain loop, the
request buffer is allocated exactly once (lazily, on the first chain;
zero times if no chain arrives), its capacity is exactly `se->bufsize`
and never changes, and the same buffer is reused for every session
invocation. -/
theorem fv_queue_thread_buffer_once (inHeaderSize bufsize : Nat)
    (fresh : List Nat) (elems : List (List (List Nat)))
    (hfresh : fresh.length = bufsize) :
    (fv_queue_thread_drain inHeaderSize bufsize fresh none 0 elems).nallocs
        = (match elems with | [] => 0 | _ :: _ => 1)
    ∧ (∀ b, (fv_queue_thread_drain inHeaderSize bufsize fresh none 0
        elems).fbuf = some b → b.length = bufsize)
    ∧ (∀ p ∈ (fv_queue_thread_drain inHeaderSize bufsize fresh none 0
        elems).calls, (p.1 : List Nat).length = bufsize) := by
  obtain ⟨h1, h2, h3⟩ :=
    fv_queue_thread_drain_invariant inHeaderSize bufsize fresh hfresh
      elems none 0 (by intro b hb; cases hb)
  refine ⟨?_, h2, h3⟩
  rw [h1]
  cases elems with
  | nil => rfl
  | cons e es => rfl

theorem fv_queue_thread_buffer_once_witness :
    (([0,0] : List Nat).length = 2)
    ∧ (fv_queue_thread_drain 2 2 [0,0] none 0 [[[1,2]],[[3,3]]]).nallocs
        = (match [[[1,2]],[[3,3]]] with | [] => 0 | _ :: _ => 1)
    ∧ (∀ b, (fv_queue_thread_drain 2 2 [0,0] none 0
        [[[1,2]],[[3,3]]]).fbuf = some b → b.length = 2)
    ∧ (∀ p ∈ (fv_queue_thread_drain 2 2 [0,0] none 0
        [[[1,2]],[[3,3]]]).calls, (p.1 : List Nat).length = 2) :=
  ⟨by decide, fv_queue_thread_buffer_once 2 2 [0,0] [[[1,2]],[[3,3]]] rfl⟩

/-- C9: a queue state-change event for index 0 (for either value of
`started`) is a no-op: the queue table is returned unchanged and no
worker thread is spawned. -/
theorem fv_queue_set_started_index_zero_noop (st : List (Option QueueInfo))
    (started : Bool) (devKickFd : Int) (newThread : Nat) :
    fv_queue_set_started st 0 started devKickFd newThread
      = some (st, false) := rfl

/-- C8 as frozen is refuted at queue index 0: starting index 0 on the
empty queue table is a start event whose index (0) is beyond the
current table bounds (length 0), yet the table is not grown to length
`0 + 1` — `fv_queue_set_started` short-circuits index 0 as the reserved
notification queue before the grow logic runs and leaves the table at
length 0. -/
theorem fv_queue_set_started_grow_refuted_at_zero :
    ¬ (∃ st' sp, fv_queue_set_started [] 0 true 5 7 = some (st', sp)
        ∧ st'.length = 0 + 1) := by
  intro h
  obtain ⟨st', sp, heq, hlen⟩ := h
  have he : fv_queue_set_started [] 0 true 5 7 = some ([], false) := rfl
  rw [he] at heq
  cases heq
  exact absurd hlen (by decide)

/-- C8 (amended): for every start event with *nonzero* queue index
`qidx` beyond the current table bounds, the table is grown to
`qidx + 1` entries with all newly created slack entries
zero-initialised (NULL), every existing entry (necessarily at an index
other than `qidx`) is left unchanged, a fresh record holding the new
worker thread handle and the captured kick fd is installed at `qidx`,
and a worker thread is spawned.  The amendment excludes `qidx = 0`,
which the code treats as the reserved notification queue and ignores
before the grow logic runs. -/
theorem fv_queue_set_started_grow (st : List (Option QueueInfo))
    (qidx : Nat) (devKickFd : Int) (newThread : Nat)
    (h0 : qidx ≠ 0) (hlen : st.length ≤ qidx) :
    ∃ st', fv_queue_set_started st qidx true devKickFd newThread
        = some (st', true)
      ∧ st'.length = qidx + 1
      ∧ (∀ j, j < st.length → st'[j]? = st[j]?)
      ∧ (∀ j, st.length ≤ j → j < qidx → st'[j]? = some none)
      ∧ st'[qidx]? = some (some ⟨newThread, qidx, devKickFd⟩) := by
  have hq : (st ++ List.replicate (qidx + 1 - st.length) none)[qidx]?
      = some (none : Option QueueInfo) := by
    rw [List.getElem?_append, if_neg (by omega), List.getElem?_replicate,
      if_pos (by omega)]
  have happlen : (st ++ List.replicate (qidx + 1 - st.length)
      (none : Option QueueInfo)).length = qidx + 1 := by
    simp only [List.length_append, List.length_replicate]
    omega
  have hun : fv_queue_set_started st qidx true devKickFd newThread
      = some ((st ++ List.replicate (qidx + 1 - st.length) none).set qidx
          (some ⟨newThread, qidx, devKickFd⟩), true) := by
    rw [fv_queue_set_started]
    rw [if_neg h0, if_pos rfl]
    simp only []
    rw [if_pos hlen, hq]
  refine ⟨_, hun, ?_, ?_, ?_, ?_⟩
  · rw [List.length_set, happlen]
  · intro j hj
    rw [List.getElem?_set, if_neg (by omega), List.getElem?_append,
      if_pos hj]
  · intro j hj1 hj2
    rw [List.getElem?_set, if_neg (by omega), List.getElem?_append,
      if_neg (by omega), List.getElem?_replicate, if_pos (by omega)]
  · rw [List.getElem?_set, if_pos rfl, if_pos (by rw [happlen]; omega)]

theorem fv_queue_set_started_grow_witness :
    ((3 : Nat) ≠ 0
      ∧ ([none, some ⟨9, 1, -1⟩] : List (Option QueueInfo)).length ≤ 3)
    ∧ ∃ st', fv_queue_set_started [none, some ⟨9, 1, -1⟩] 3 true 5 7
          = some (st', true)
        ∧ st'.length = 3 + 1
        ∧ (∀ j, j < ([none, some ⟨9, 1, -1⟩]
            : List (Option QueueInfo)).length →
            st'[j]? = ([none, some ⟨9, 1, -1⟩]
              : List (Option QueueInfo))[j]?)
        ∧ (∀ j, ([none, some ⟨9, 1, -1⟩]
            : List (Option QueueInfo)).length ≤ j → j < 3 →
            st'[j]? = some none)
        ∧ st'[3]? = some (some ⟨7, 3, 5⟩) :=
  ⟨⟨by decide, by decide⟩,
    fv_queue_set_started_grow [none, some ⟨9, 1, -1⟩] 3 5 7
      (by decide) (by decide)⟩
